import Mathlib

/-!
Shallow embedding of the MusicBot queue engine (`musicbot/playlist.py`,
`musicbot/lib/event_emitter.py`, `musicbot/constructs.py`) and proofs of the
spec claims about it.

The backlog `self.entries` is a `collections.deque`; we model it as a
`List Entry` whose head is the left end of the deque.  Entries themselves
are external to the queue engine (`musicbot/entry.py` is not part of the
verified sources); the `Entry` structure below records exactly the fields
the queue engine consumes: `meta["author"]`, `duration`, and the outcome of
awaiting `get_ready_future()`.
-/

namespace MB

/-- Modelled from the spec: the Entry contract says `get_ready_future()`
returns a future that resolves to the (ready) entry, or fails with an
extraction-kind error; entries rebuilt from persisted state can also fail
with an `AttributeError` (lost live download handle).  Any other exception
type is possible in principle and is *not* caught by
`Playlist._try_get_entry_future`, so we keep a fourth outcome for it. -/
inductive ReadyOutcome where
  | ok
  | extractionError
  | attributeError
  | otherError
deriving DecidableEq, Repr

/-- The slice of a playlist entry that `playlist.py` consumes:
`meta.get("author")`, `duration` (absence = unknown), the outcome of
awaiting its readiness future, and an identifier so that distinct queue
slots can hold distinguishable entries. -/
structure Entry where
  eid : Nat
  author : Option Nat
  duration : Option Nat
  ready : ReadyOutcome
deriving DecidableEq, Repr

/-- Events emitted on the playlist's event bus (`self.emit(...)` calls in
`playlist.py`): `entry-added` and `entry-failed`. -/
inductive BusEvent where
  | entryAdded (entry : Entry) (deferSerialize : Bool)
  | entryFailed (entry : Entry)
deriving DecidableEq, Repr

/-- An exception escaping `get_next_entry`: only exception types other than
`ExtractionError`/`AttributeError` can do so (nothing catches them). -/
inductive QueueError where
  | unhandledException
deriving DecidableEq, Repr

/-- `Playlist.get_next_song_from_author`: first queued entry (in current
order) whose `meta["author"]` equals the given author. -/
def get_next_song_from_author (author : Nat) (entries : List Entry) : Option Entry :=
  entries.find? (fun e => e.author == some author)

/-- `Playlist.get_next_entry(predownload_next)` together with the awaited
branch of `Playlist._try_get_entry_future`, which recurses back into
`get_next_entry`.  Returns (entry or none, remaining backlog, events
emitted during the call, in order).

The prefetch step (`self._try_get_entry_future(next_entry, True)`) only
calls `get_ready_future()` without awaiting; per the Entry contract that
call itself returns a future without raising, so it has no observable
effect on the queue state or the event stream and is represented by the
comment here alone. -/
def get_next_entry : List Entry → Bool → Except QueueError (Option Entry × List Entry × List BusEvent)
  | [], _ => .ok (none, [], [])
  | e :: rest, _ =>
    -- prefetch of `rest.head?` happens here when the flag is set (no effects)
    match e.ready with
    | .ok => .ok (some e, rest, [])
    | .extractionError =>
      (get_next_entry rest true).map (fun r => (r.1, r.2.1, .entryFailed e :: r.2.2))
    | .attributeError =>
      (get_next_entry rest true).map (fun r => (r.1, r.2.1, .entryFailed e :: r.2.2))
    | .otherError => .error .unhandledException

/-- `Playlist._try_get_entry_future(entry, predownload)` acting on a backlog
state `q` (the backlog as it stands after `entry` was popped).  The
`predownload` branch fires `get_ready_future()` without awaiting and
returns `None`; the awaited branch returns the ready entry, or on an
`ExtractionError`/`AttributeError` emits `entry-failed` and recurses into
`get_next_entry`; any other exception propagates. -/
def try_get_entry_future (q : List Entry) (e : Entry) (predownload : Bool) :
    Except QueueError (Option Entry × List Entry × List BusEvent) :=
  if predownload then .ok (none, q, [])
  else
    match e.ready with
    | .ok => .ok (some e, q, [])
    | .extractionError =>
      (get_next_entry q true).map (fun r => (r.1, r.2.1, .entryFailed e :: r.2.2))
    | .attributeError =>
      (get_next_entry q true).map (fun r => (r.1, r.2.1, .entryFailed e :: r.2.2))
    | .otherError => .error .unhandledException

/-- On a non-empty backlog, `get_next_entry` pops the head and delegates to
the awaited branch of `_try_get_entry_future` (sanity link between the two
definitions above, mirroring the call in the source). -/
theorem get_next_entry_cons (e : Entry) (rest : List Entry) (b : Bool) :
    get_next_entry (e :: rest) b = try_get_entry_future rest e false := by
  cases h : e.ready <;> simp [get_next_entry, try_get_entry_future, h]

/-- An entry whose readiness future does not succeed. -/
def notReady (e : Entry) : Bool := e.ready != ReadyOutcome.ok

example : get_next_entry [⟨0, none, none, .extractionError⟩, ⟨1, none, none, .ok⟩] true =
    .ok (some ⟨1, none, none, .ok⟩, [], [.entryFailed ⟨0, none, none, .extractionError⟩]) := rfl

/-- C1: for a backlog whose failures are all of the caught kinds
(extraction or deserialization), `get_next_entry` skips every failing
entry at the front, emitting exactly one `entry-failed` event for each in
order, returns the first entry whose readiness future succeeds (`none` if
the queue is exhausted during the recovery), and never raises to the
caller (the result is `Except.ok`). -/
theorem get_next_entry_skips_failures (q : List Entry)
    (h : ∀ e ∈ q, e.ready ≠ ReadyOutcome.otherError) :
    get_next_entry q true =
      .ok ((q.dropWhile notReady).head?, (q.dropWhile notReady).tail,
           (q.takeWhile notReady).map BusEvent.entryFailed) := by
  induction q with
  | nil => rfl
  | cons e rest ih =>
    have he : e.ready ≠ ReadyOutcome.otherError := h e (List.mem_cons_self e rest)
    have hrest : ∀ x ∈ rest, x.ready ≠ ReadyOutcome.otherError :=
      fun x hx => h x (List.mem_cons_of_mem e hx)
    cases hr : e.ready with
    | ok =>
      have hn : notReady e = false := by simp [notReady, hr]
      simp [get_next_entry, hr, List.dropWhile_cons, List.takeWhile_cons, hn]
    | extractionError =>
      have hn : notReady e = true := by simp [notReady, hr]
      simp [get_next_entry, hr, ih hrest, List.dropWhile_cons, List.takeWhile_cons, hn,
        Except.map]
    | attributeError =>
      have hn : notReady e = true := by simp [notReady, hr]
      simp [get_next_entry, hr, ih hrest, List.dropWhile_cons, List.takeWhile_cons, hn,
        Except.map]
    | otherError => exact absurd hr he

/-- Witness for C1 on the spec's own scenario `[A(fails), B(ok)]`:
`get_next_entry` returns `B`, one `entry-failed` for `A`, no exception. -/
theorem get_next_entry_skips_failures_witness :
    get_next_entry [⟨0, none, none, .extractionError⟩, ⟨1, none, none, .ok⟩] true =
      .ok (([⟨0, none, none, .extractionError⟩,
             (⟨1, none, none, .ok⟩ : Entry)].dropWhile notReady).head?,
           ([⟨0, none, none, .extractionError⟩,
             (⟨1, none, none, .ok⟩ : Entry)].dropWhile notReady).tail,
           ([⟨0, none, none, .extractionError⟩,
             (⟨1, none, none, .ok⟩ : Entry)].takeWhile notReady).map BusEvent.entryFailed) :=
  get_next_entry_skips_failures
    [⟨0, none, none, .extractionError⟩, ⟨1, none, none, .ok⟩] (by decide)

/-- The author-collection loop at the top of
`Playlist.reorder_for_round_robin`: distinct authors in order of first
appearance; entries whose `meta` lacks an author contribute nothing. -/
def collectAuthors (q : List Entry) : List Nat :=
  q.foldl (fun acc e =>
    match e.author with
    | some a => if a ∈ acc then acc else acc ++ [a]
    | none => acc) []

/-- The reset `if request_counter == len(all_authors): request_counter = 0`
performed at the top of each round-robin loop iteration. -/
def resetCounter (counter len : Nat) : Nat :=
  if counter = len then 0 else counter

/-- The `while self.entries:` loop of `Playlist.reorder_for_round_robin`.
State: current backlog (`self.entries`), the mutable `all_authors` list,
`request_counter`, and the `new_queue` accumulator.  `all_authors[request_counter]`
raising `IndexError` is modelled by `.error` carrying the backlog as it
stands at that moment (the assignment `self.entries = new_queue` never runs,
so `new_queue` is discarded). -/
def rrLoop (entries : List Entry) (authors : List Nat) (counter : Nat)
    (newQueue : List Entry) : Except (List Entry) (List Entry) :=
  if hne : entries = [] then .ok newQueue
  else
    match ha : authors.get? (resetCounter counter authors.length) with
    | none => .error entries
    | some a =>
      match hs : get_next_song_from_author a entries with
      | none =>
        rrLoop entries (authors.eraseIdx (resetCounter counter authors.length))
          (resetCounter counter authors.length) newQueue
      | some song =>
        rrLoop (entries.erase song) authors
          (resetCounter counter authors.length + 1) (newQueue ++ [song])
termination_by entries.length + authors.length
decreasing_by
  · have hc : resetCounter counter authors.length < authors.length := by
      by_contra hge
      rw [List.get?_eq_none.mpr (Nat.le_of_not_lt hge)] at ha
      exact Option.noConfusion ha
    have hlen : (authors.eraseIdx (resetCounter counter authors.length)).length =
        authors.length - 1 := List.length_eraseIdx_of_lt hc
    omega
  · have hmem : song ∈ entries := List.mem_of_find?_eq_some hs
    have hlen : (entries.erase song).length = entries.length - 1 :=
      List.length_erase_of_mem hmem
    have hpos : 0 < entries.length := List.length_pos.mpr hne
    omega

/-- `Playlist.reorder_for_round_robin`: build the first-appearance author
list, then run the rotating-pointer loop.  `.ok` holds the reordered
backlog; `.error` holds the backlog left behind when the loop dies with
`IndexError`. -/
def reorder_for_round_robin (q : List Entry) : Except (List Entry) (List Entry) :=
  rrLoop q (collectAuthors q) 0 []

/-- Outcome of `Playlist._add_entry`: the backlog afterwards, the events
emitted, and whether the call raised (it can, via the `IndexError` inside
`reorder_for_round_robin` when fairness is enabled). -/
structure AddResult where
  queue : List Entry
  events : List BusEvent
  raised : Bool
deriving DecidableEq, Repr

/-- `Playlist._add_entry(entry, head=..., defer_serialize=...)` under the
`config.round_robin_queue` flag: append (or prepend) the entry, optionally
reorder for round robin, emit `entry-added`, and if the new entry is now at
the head fire its `get_ready_future()` without awaiting (no observable
effect here, per the Entry contract). -/
def add_entry (q : List Entry) (e : Entry)
    (head roundRobinQueue deferSerialize : Bool) : AddResult :=
  let q1 := if head then e :: q else q ++ [e]
  match (if roundRobinQueue then reorder_for_round_robin q1 else .ok q1) with
  | .error residual => ⟨residual, [], true⟩
  | .ok q2 => ⟨q2, [.entryAdded e deferSerialize], false⟩

/-- A front-end performing a sequence of tail `add_entry` calls with
fairness reordering disabled, starting from an empty backlog. -/
def addAllTail (es : List Entry) : List Entry :=
  es.foldl (fun q e => (add_entry q e false false false).queue) []

/-- Repeatedly call `get_next_entry` until it reports an empty queue,
collecting the returned entries in order.  Fuel bounds the number of calls;
`q.length` is always enough because every call that returns an entry has
consumed at least one element of the backlog. -/
def drainFuel : Nat → List Entry → Except QueueError (List Entry)
  | 0, _ => .ok []
  | fuel + 1, q =>
    match get_next_entry q true with
    | .error err => .error err
    | .ok (none, _, _) => .ok []
    | .ok (some e, q2, _) =>
      match drainFuel fuel q2 with
      | .ok rest => .ok (e :: rest)
      | .error err => .error err

/-- All entries obtained by calling `get_next_entry` until exhaustion. -/
def drain (q : List Entry) : Except QueueError (List Entry) :=
  drainFuel q.length q

theorem add_entry_tail_queue (q : List Entry) (e : Entry) (d : Bool) :
    (add_entry q e false false d).queue = q ++ [e] := rfl

theorem addAllTail_go (es : List Entry) :
    ∀ acc : List Entry,
      es.foldl (fun q e => (add_entry q e false false false).queue) acc = acc ++ es := by
  induction es with
  | nil => intro acc; simp
  | cons e rest ih =>
    intro acc
    rw [List.foldl_cons, add_entry_tail_queue, ih (acc ++ [e])]
    simp

theorem addAllTail_eq (es : List Entry) : addAllTail es = es := by
  simpa using addAllTail_go es []

theorem get_next_entry_all_ok (q : List Entry) (h : ∀ e ∈ q, e.ready = ReadyOutcome.ok) :
    get_next_entry q true = .ok (q.head?, q.tail, []) := by
  cases q with
  | nil => rfl
  | cons e rest =>
    have he : e.ready = ReadyOutcome.ok := h e (List.mem_cons_self e rest)
    simp [get_next_entry, he]

theorem drain_all_ok (q : List Entry) (h : ∀ e ∈ q, e.ready = ReadyOutcome.ok) :
    drain q = .ok q := by
  unfold drain
  induction q with
  | nil => rfl
  | cons e rest ih =>
    have hrest : ∀ x ∈ rest, x.ready = ReadyOutcome.ok :=
      fun x hx => h x (List.mem_cons_of_mem e hx)
    simp only [List.length_cons, drainFuel, get_next_entry_all_ok (e :: rest) h,
      List.head?_cons, List.tail_cons]
    rw [ih hrest]

/-- C2: with fairness reordering disabled, tail `add_entry` calls followed
by repeated `get_next_entry` calls (all readiness futures succeeding)
deliver the entries in exactly insertion order, and `get_next_entry` on an
empty queue returns the empty result. -/
theorem fifo_insertion_order (es : List Entry)
    (h : ∀ e ∈ es, e.ready = ReadyOutcome.ok) :
    drain (addAllTail es) = .ok es ∧
      get_next_entry [] true = .ok (none, [], []) := by
  refine ⟨?_, rfl⟩
  rw [addAllTail_eq]
  exact drain_all_ok es h

/-- Witness for C2 at a concrete two-entry insertion sequence. -/
theorem fifo_insertion_order_witness :
    drain (addAllTail [⟨0, none, none, .ok⟩, ⟨1, none, none, .ok⟩]) =
        .ok [⟨0, none, none, .ok⟩, ⟨1, none, none, .ok⟩] ∧
      get_next_entry [] true = .ok (none, [], []) :=
  fifo_insertion_order [⟨0, none, none, .ok⟩, ⟨1, none, none, .ok⟩] (by decide)

theorem find?_split {p : Entry → Bool} :
    ∀ {l : List Entry} {x : Entry}, l.find? p = some x →
      ∃ l1 l2, l = l1 ++ x :: l2 ∧ (∀ y ∈ l1, p y = false) ∧ l.erase x = l1 ++ l2 := by
  intro l
  induction l with
  | nil => intro x h; simp at h
  | cons a t ih =>
    intro x h
    by_cases hp : p a
    · rw [List.find?_cons_of_pos _ hp] at h
      obtain rfl : a = x := by injection h
      exact ⟨[], t, by simp, by simp, by simp⟩
    · rw [List.find?_cons_of_neg _ hp] at h
      obtain ⟨l1, l2, ht, hl1, herase⟩ := ih h
      have hpx : p x = true := List.find?_some h
      have hax : ¬(a == x) = true := fun hax => hp (by rw [eq_of_beq hax]; exact hpx)
      refine ⟨a :: l1, l2, by rw [ht]; rfl, ?_, ?_⟩
      · intro y hy
        rcases List.mem_cons.mp hy with rfl | hy
        · exact Bool.eq_false_iff.mpr hp
        · exact hl1 y hy
      · rw [List.erase_cons_tail (by simpa using hax), herase]
        rfl

theorem resetCounter_lt (counter len : Nat) (hc : counter ≤ len) (hlen : 0 < len) :
    resetCounter counter len < len := by
  unfold resetCounter
  split <;> omega

theorem rrLoop_nil (authors : List Nat) (counter : Nat) (acc : List Entry) :
    rrLoop [] authors counter acc = .ok acc := by
  conv_lhs => rw [rrLoop.eq_def]
  simp

theorem rrLoop_step_err (entries : List Entry) (authors : List Nat) (counter : Nat)
    (acc : List Entry) (hne : entries ≠ [])
    (hget : authors.get? (resetCounter counter authors.length) = none) :
    rrLoop entries authors counter acc = .error entries := by
  conv_lhs => rw [rrLoop.eq_def]
  rw [dif_neg hne]
  split
  · rfl
  · rename_i a heq
    rw [hget] at heq
    exact Option.noConfusion heq

theorem rrLoop_step_noSong (entries : List Entry) (authors : List Nat) (counter : Nat)
    (acc : List Entry) (hne : entries ≠ []) (a : Nat)
    (hget : authors.get? (resetCounter counter authors.length) = some a)
    (hfind : get_next_song_from_author a entries = none) :
    rrLoop entries authors counter acc =
      rrLoop entries (authors.eraseIdx (resetCounter counter authors.length))
        (resetCounter counter authors.length) acc := by
  conv_lhs => rw [rrLoop.eq_def]
  rw [dif_neg hne]
  split
  · rename_i heq
    rw [hget] at heq
    exact Option.noConfusion heq
  · rename_i a' heq
    rw [hget] at heq
    obtain rfl : a = a' := by injection heq
    split
    · rfl
    · rename_i song heqs
      rw [hfind] at heqs
      exact Option.noConfusion heqs

theorem rrLoop_step_found (entries : List Entry) (authors : List Nat) (counter : Nat)
    (acc : List Entry) (hne : entries ≠ []) (a : Nat) (song : Entry)
    (hget : authors.get? (resetCounter counter authors.length) = some a)
    (hfind : get_next_song_from_author a entries = some song) :
    rrLoop entries authors counter acc =
      rrLoop (entries.erase song) authors
        (resetCounter counter authors.length + 1) (acc ++ [song]) := by
  conv_lhs => rw [rrLoop.eq_def]
  rw [dif_neg hne]
  split
  · rename_i heq
    rw [hget] at heq
    exact Option.noConfusion heq
  · rename_i a' heq
    rw [hget] at heq
    obtain rfl : a = a' := by injection heq
    split
    · rename_i heqs
      rw [hfind] at heqs
      exact Option.noConfusion heqs
    · rename_i song' heqs
      rw [hfind] at heqs
      obtain rfl : song = song' := by injection heqs
      rfl

/-- `e` is an entry requested by author `b`. -/
def authoredBy (b : Nat) (e : Entry) : Bool := e.author == some b

theorem mem_eraseIdx_of_ne {authors : List Nat} {c a0 b : Nat}
    (hlt : c < authors.length)
    (hget : authors.get? c = some a0)
    (hb : b ∈ authors) (hne : b ≠ a0) : b ∈ authors.eraseIdx c := by
  have hval : authors.get ⟨c, hlt⟩ = a0 := by
    rw [List.get?_eq_get hlt] at hget
    injection hget
  have hsplit : authors.take c ++ a0 :: authors.drop (c + 1) = authors := by
    have hdrop : authors.drop c = a0 :: authors.drop (c + 1) := by
      rw [List.drop_eq_getElem_cons hlt]
      simp [← hval]
    rw [← hdrop, List.take_append_drop]
  rw [List.eraseIdx_eq_take_drop_succ]
  rw [← hsplit] at hb
  rcases List.mem_append.mp hb with h1 | h2
  · exact List.mem_append.mpr (Or.inl h1)
  · rcases List.mem_cons.mp h2 with rfl | h3
    · exact absurd rfl hne
    · exact List.mem_append.mpr (Or.inr h3)

theorem collectAuthors_go (q : List Entry) :
    ∀ (acc : List Nat) (a : Nat), (a ∈ acc ∨ ∃ e ∈ q, e.author = some a) →
      a ∈ q.foldl (fun acc e =>
        match e.author with
        | some b => if b ∈ acc then acc else acc ++ [b]
        | none => acc) acc := by
  induction q with
  | nil =>
    intro acc a h
    rcases h with h | ⟨e, he, _⟩
    · simpa using h
    · simp at he
  | cons x t ih =>
    intro acc a h
    rw [List.foldl_cons]
    apply ih
    rcases h with hacc | ⟨e, he, hea⟩
    · left
      cases hx : x.author with
      | none => simpa [hx] using hacc
      | some b =>
        by_cases hb : b ∈ acc
        · simpa [hx, hb] using hacc
        · simp only [hx, if_neg hb]
          exact List.mem_append.mpr (Or.inl hacc)
    · rcases List.mem_cons.mp he with rfl | het
      · left
        by_cases hb : a ∈ acc
        · simpa [hea, hb] using hb
        · simp only [hea, if_neg hb]
          exact List.mem_append.mpr (Or.inr (List.mem_singleton.mpr rfl))
      · exact Or.inr ⟨e, het, hea⟩

theorem mem_collectAuthors {q : List Entry} {e : Entry} {a : Nat}
    (he : e ∈ q) (ha : e.author = some a) : a ∈ collectAuthors q :=
  collectAuthors_go q [] a (Or.inr ⟨e, he, ha⟩)

/-- Loop invariant for the success path of `reorder_for_round_robin`: if
every queued entry's author is still present in `all_authors`, the loop
terminates without `IndexError`, its result is the accumulator followed by
a permutation of the remaining entries, and per-author subsequences are
preserved. -/
theorem rrLoop_ok (entries : List Entry) (authors : List Nat) (counter : Nat)
    (acc : List Entry)
    (hc : counter ≤ authors.length)
    (hmem : ∀ e ∈ entries, ∃ a, e.author = some a ∧ a ∈ authors) :
    ∃ res, rrLoop entries authors counter acc = .ok res ∧
      res.Perm (acc ++ entries) ∧
      ∀ b : Nat, res.filter (authoredBy b) =
        acc.filter (authoredBy b) ++ entries.filter (authoredBy b) := by
  by_cases hne : entries = []
  · subst hne
    exact ⟨acc, rrLoop_nil authors counter acc, by simp, fun b => by simp⟩
  · have hA : authors ≠ [] := by
      obtain ⟨e, he⟩ := List.exists_mem_of_ne_nil entries hne
      obtain ⟨a, _, haA⟩ := hmem e he
      exact List.ne_nil_of_mem haA
    have hlt : resetCounter counter authors.length < authors.length :=
      resetCounter_lt counter authors.length hc (List.length_pos.mpr hA)
    have hget : authors.get? (resetCounter counter authors.length) =
        some (authors.get ⟨resetCounter counter authors.length, hlt⟩) :=
      List.get?_eq_get hlt
    cases hfind : get_next_song_from_author
        (authors.get ⟨resetCounter counter authors.length, hlt⟩) entries with
    | none =>
      rw [rrLoop_step_noSong entries authors counter acc hne _ hget hfind]
      have hc' : resetCounter counter authors.length ≤
          (authors.eraseIdx (resetCounter counter authors.length)).length := by
        rw [List.length_eraseIdx_of_lt hlt]
        omega
      have hmem' : ∀ e ∈ entries, ∃ a, e.author = some a ∧
          a ∈ authors.eraseIdx (resetCounter counter authors.length) := by
        intro e he
        obtain ⟨a, hea, haA⟩ := hmem e he
        have hnofind := List.find?_eq_none.mp hfind e he
        have hane : a ≠ authors.get ⟨resetCounter counter authors.length, hlt⟩ := by
          intro habs
        -- if a were the selected author, e would satisfy the find? predicate
          apply hnofind
          rw [hea, habs]
          simp
        exact ⟨a, hea, mem_eraseIdx_of_ne hlt hget haA hane⟩
      exact rrLoop_ok entries (authors.eraseIdx (resetCounter counter authors.length))
        (resetCounter counter authors.length) acc hc' hmem'
    | some song =>
      rw [rrLoop_step_found entries authors counter acc hne _ song hget hfind]
      obtain ⟨l1, l2, hsplit, hl1, herase⟩ := find?_split hfind
      have hsa : song.author =
          some (authors.get ⟨resetCounter counter authors.length, hlt⟩) := by
        have := List.find?_some hfind
        simpa using this
      have hmem' : ∀ e ∈ entries.erase song, ∃ a, e.author = some a ∧ a ∈ authors :=
        fun e he => hmem e (List.mem_of_mem_erase he)
      obtain ⟨res, hres, hperm, hfilt⟩ :=
        rrLoop_ok (entries.erase song) authors
          (resetCounter counter authors.length + 1) (acc ++ [song]) hlt hmem'
      refine ⟨res, hres, ?_, ?_⟩
      · refine hperm.trans ?_
        rw [herase, hsplit]
        have hassoc : acc ++ [song] ++ (l1 ++ l2) = acc ++ (song :: (l1 ++ l2)) := by
          simp
        rw [hassoc]
        exact List.Perm.append_left acc List.perm_middle.symm
      · intro b
        rw [hfilt b, herase, hsplit]
        by_cases hb : b = authors.get ⟨resetCounter counter authors.length, hlt⟩
        · have hl1f : l1.filter (authoredBy b) = [] := by
            rw [List.filter_eq_nil_iff]
            intro y hy
            have hne' := hl1 y hy
            simp only [authoredBy, hb, List.get_eq_getElem]
            simp only [List.get_eq_getElem] at hne'
            simp [hne']
          have hpsong : authoredBy b song = true := by
            simp [authoredBy, hsa, hb]
          simp [List.filter_append, List.filter_cons, hpsong, hl1f]
        · have hpsong : authoredBy b song = false := by
            simp [authoredBy, hsa]
            exact fun habs => hb habs.symm
          simp [List.filter_append, List.filter_cons, hpsong]
termination_by entries.length + authors.length
decreasing_by
  · have hlen : (authors.eraseIdx (resetCounter counter authors.length)).length =
        authors.length - 1 := List.length_eraseIdx_of_lt hlt
    have hpos : 0 < authors.length := List.length_pos.mpr hA
    omega
  · have hsong : song ∈ entries := List.mem_of_find?_eq_some hfind
    have hlen : (entries.erase song).length = entries.length - 1 :=
      List.length_erase_of_mem hsong
    have hpos : 0 < entries.length := List.length_pos.mpr hne
    omega

/-- Loop invariant for the failure path of `reorder_for_round_robin`: if
some queued entry has no author (and every authored entry's author is
still in `all_authors`), the loop inevitably dies with `IndexError`,
leaving exactly the authorless entries in the backlog — every authored
entry was moved into the discarded `new_queue` first. -/
theorem rrLoop_err_inv (entries : List Entry) (authors : List Nat) (counter : Nat)
    (acc : List Entry)
    (hc : counter ≤ authors.length)
    (hmem : ∀ e ∈ entries, ∀ a : Nat, e.author = some a → a ∈ authors)
    (hnone : ∃ e ∈ entries, e.author = none) :
    rrLoop entries authors counter acc =
      .error (entries.filter (fun e => e.author == none)) := by
  by_cases hne : entries = []
  · subst hne
    simp at hnone
  · by_cases hA : authors = []
    · subst hA
      rw [rrLoop_step_err entries [] counter acc hne (by simp)]
      have hall : ∀ e ∈ entries, (e.author == (none : Option Nat)) = true := by
        intro e he
        cases hea : e.author with
        | none => simp
        | some a => exact absurd (hmem e he a hea) (List.not_mem_nil a)
      rw [List.filter_eq_self.mpr hall]
    · have hlt : resetCounter counter authors.length < authors.length :=
        resetCounter_lt counter authors.length hc
          (List.length_pos.mpr hA)
      have hget : authors.get? (resetCounter counter authors.length) =
          some (authors.get ⟨resetCounter counter authors.length, hlt⟩) :=
        List.get?_eq_get hlt
      cases hfind : get_next_song_from_author
          (authors.get ⟨resetCounter counter authors.length, hlt⟩) entries with
      | none =>
        rw [rrLoop_step_noSong entries authors counter acc hne _ hget hfind]
        have hc' : resetCounter counter authors.length ≤
            (authors.eraseIdx (resetCounter counter authors.length)).length := by
          rw [List.length_eraseIdx_of_lt hlt]
          omega
        have hmem' : ∀ e ∈ entries, ∀ a : Nat, e.author = some a →
            a ∈ authors.eraseIdx (resetCounter counter authors.length) := by
          intro e he a hea
          have hnofind := List.find?_eq_none.mp hfind e he
          have hane : a ≠ authors.get ⟨resetCounter counter authors.length, hlt⟩ := by
            intro habs
            apply hnofind
            rw [hea, habs]
            simp
          exact mem_eraseIdx_of_ne hlt hget (hmem e he a hea) hane
        exact rrLoop_err_inv entries
          (authors.eraseIdx (resetCounter counter authors.length))
          (resetCounter counter authors.length) acc hc' hmem' hnone
      | some song =>
        rw [rrLoop_step_found entries authors counter acc hne _ song hget hfind]
        obtain ⟨l1, l2, hsplit, hl1, herase⟩ := find?_split hfind
        have hsa : song.author =
            some (authors.get ⟨resetCounter counter authors.length, hlt⟩) := by
          have := List.find?_some hfind
          simpa using this
        have hmem' : ∀ e ∈ entries.erase song, ∀ a : Nat, e.author = some a →
            a ∈ authors :=
          fun e he a hea => hmem e (List.mem_of_mem_erase he) a hea
        have hnone' : ∃ e ∈ entries.erase song, e.author = none := by
          obtain ⟨e, he, hea⟩ := hnone
          have hesong : e ≠ song := by
            intro habs
            rw [habs, hsa] at hea
            exact Option.noConfusion hea
          exact ⟨e, (List.mem_erase_of_ne hesong).mpr he, hea⟩
        rw [rrLoop_err_inv (entries.erase song) authors
          (resetCounter counter authors.length + 1) (acc ++ [song]) hlt hmem' hnone']
        have hps : (song.author == (none : Option Nat)) = false := by
          simp [hsa]
        rw [herase, hsplit]
        simp [List.filter_append, List.filter_cons, hps]
termination_by entries.length + authors.length
decreasing_by
  · have hlen : (authors.eraseIdx (resetCounter counter authors.length)).length =
        authors.length - 1 := List.length_eraseIdx_of_lt hlt
    have hpos : 0 < authors.length := List.length_pos.mpr hA
    omega
  · have hsong : song ∈ entries := List.mem_of_find?_eq_some hfind
    have hlen : (entries.erase song).length = entries.length - 1 :=
      List.length_erase_of_mem hsong
    have hpos : 0 < entries.length := List.length_pos.mpr hne
    omega

/-- C4: a queue containing an entry without an author makes
`reorder_for_round_robin` raise `IndexError` after all authored entries
were moved into the (discarded) temporary queue: the backlog then holds
exactly the authorless entries, in their original relative order — the
authored entries are lost. -/
theorem round_robin_loses_authored (q : List Entry)
    (h : ∃ e ∈ q, e.author = none) :
    reorder_for_round_robin q = .error (q.filter (fun e => e.author == none)) := by
  unfold reorder_for_round_robin
  exact rrLoop_err_inv q (collectAuthors q) 0 [] (Nat.zero_le _)
    (fun e he a hea => mem_collectAuthors he hea) h

/-- Witness for C4 at the queue `[authored, authorless]`: the authored
entry is gone, only the authorless one survives in the backlog. -/
theorem round_robin_loses_authored_witness :
    reorder_for_round_robin [⟨0, some 1, none, .ok⟩, ⟨1, none, none, .ok⟩] =
      .error ([⟨0, some 1, none, .ok⟩, (⟨1, none, none, .ok⟩ : Entry)].filter
        (fun e => e.author == none)) :=
  round_robin_loses_authored [⟨0, some 1, none, .ok⟩, ⟨1, none, none, .ok⟩]
    ⟨⟨1, none, none, .ok⟩, by simp, rfl⟩

/-- C3 counterexample: on the queue holding one authorless entry,
`reorder_for_round_robin` does *not* terminate normally with a permutation
of the entries — it raises `IndexError` (modelled by `.error`, carrying the
backlog as left behind). -/
theorem round_robin_cex :
    reorder_for_round_robin [⟨0, none, none, .ok⟩] = .error [⟨0, none, none, .ok⟩] := by
  unfold reorder_for_round_robin
  exact rrLoop_step_err _ _ _ _ (by simp) rfl

theorem sum_len_tails_le (queues : List (List Entry)) :
    ((queues.map List.tail).map List.length).sum ≤ (queues.map List.length).sum := by
  induction queues with
  | nil => simp
  | cons l ls ih =>
    simp only [List.map_cons, List.sum_cons, List.length_tail]
    omega

theorem sum_len_tails_lt (queues : List (List Entry))
    (h : (queues.map List.length).sum ≠ 0) :
    ((queues.map List.tail).map List.length).sum < (queues.map List.length).sum := by
  induction queues with
  | nil => simp at h
  | cons l ls ih =>
    simp only [List.map_cons, List.sum_cons, List.length_tail] at h ⊢
    by_cases hl : l.length = 0
    · have hs : (ls.map List.length).sum ≠ 0 := by omega
      have := ih hs
      omega
    · have hle := sum_len_tails_le ls
      omega

/-- Reference round-robin schedule, following the spec's words: the
distinct authors' entries are served in round-robin turn — round after
round, take the next entry of each author's subsequence, visiting the
authors in a fixed order; authors with no entry left in a round simply
contribute nothing.  One round emits the heads of all non-empty
subsequences, in order; the rest is the schedule of the tails. -/
def rrSchedule (queues : List (List Entry)) : List Entry :=
  if (queues.map List.length).sum = 0 then []
  else queues.filterMap List.head? ++ rrSchedule (queues.map List.tail)
termination_by (queues.map List.length).sum
decreasing_by
  exact sum_len_tails_lt queues (by assumption)

/-- The per-author subsequences of the backlog, one per author in the
given order. -/
def subQueues (entries : List Entry) (authors : List Nat) : List (List Entry) :=
  authors.map (fun a => entries.filter (authoredBy a))

theorem rrSchedule_nil_of_sum_zero (queues : List (List Entry))
    (h : (queues.map List.length).sum = 0) : rrSchedule queues = [] := by
  conv_lhs => rw [rrSchedule.eq_def]
  rw [if_pos h]

theorem rrSchedule_eq (queues : List (List Entry)) :
    rrSchedule queues =
      queues.filterMap List.head? ++ rrSchedule (queues.map List.tail) := by
  by_cases h : (queues.map List.length).sum = 0
  · rw [rrSchedule_nil_of_sum_zero queues h]
    have h2 : ((queues.map List.tail).map List.length).sum = 0 :=
      Nat.le_zero.mp (le_of_le_of_eq (sum_len_tails_le queues) h)
    rw [rrSchedule_nil_of_sum_zero _ h2]
    have h3 : queues.filterMap List.head? = [] := by
      rw [List.filterMap_eq_nil_iff]
      intro l hl
      have hlen : l.length = 0 := by
        by_contra hn
        have hmem : l.length ∈ queues.map List.length := List.mem_map_of_mem _ hl
        have hpos := List.le_sum_of_mem hmem
        omega
      rw [List.length_eq_zero.mp hlen]
      rfl
    rw [h3]
    rfl
  · conv_lhs => rw [rrSchedule.eq_def]
    rw [if_neg h]

theorem rrSchedule_middle_nil (X Y : List (List Entry)) :
    rrSchedule (X ++ ([] : List Entry) :: Y) = rrSchedule (X ++ Y) := by
  by_cases h : ((X ++ ([] : List Entry) :: Y).map List.length).sum = 0
  · have hxy : ((X ++ Y).map List.length).sum = 0 := by
      simp only [List.map_append, List.sum_append, List.map_cons, List.sum_cons,
        List.length_nil] at h ⊢
      omega
    rw [rrSchedule_nil_of_sum_zero _ h, rrSchedule_nil_of_sum_zero _ hxy]
  · rw [rrSchedule_eq (X ++ [] :: Y), rrSchedule_eq (X ++ Y)]
    have h1 : (X ++ ([] : List Entry) :: Y).filterMap List.head? =
        (X ++ Y).filterMap List.head? := by
      simp [List.filterMap_append]
    have h2 : (X ++ ([] : List Entry) :: Y).map List.tail =
        X.map List.tail ++ ([] : List Entry) :: Y.map List.tail := by
      simp
    rw [h1, h2, rrSchedule_middle_nil (X.map List.tail) (Y.map List.tail)]
    simp [List.map_append]
termination_by ((X ++ ([] : List Entry) :: Y).map List.length).sum
decreasing_by
  have hrw : X.map List.tail ++ ([] : List Entry) :: Y.map List.tail =
      (X ++ ([] : List Entry) :: Y).map List.tail := by
    simp
  rw [hrw]
  exact sum_len_tails_lt _ h

theorem head?_filter (p : Entry → Bool) (l : List Entry) :
    (l.filter p).head? = l.find? p := by
  induction l with
  | nil => rfl
  | cons a t ih =>
    by_cases hp : p a
    · rw [List.filter_cons_of_pos hp, List.find?_cons_of_pos _ hp]
      rfl
    · rw [List.filter_cons_of_neg hp, List.find?_cons_of_neg _ hp]
      exact ih

/-- The schedule still owed by the round-robin loop from a mid-round
state: the rotating pointer has already served the authors in `A` during
the current round and is about to serve those in `B`.  Serving the rest of
the round takes the earliest remaining entry of each author of `B` that
still has one; afterwards full rounds continue over `A ++ B`, with `B`'s
subsequences beheaded by the partial round. -/
def midRef (entries : List Entry) (A B : List Nat) : List Entry :=
  B.filterMap (fun b => (entries.filter (authoredBy b)).head?) ++
    rrSchedule (subQueues entries A ++ (subQueues entries B).map List.tail)

theorem midRef_nilA (E : List Entry) (A : List Nat) :
    midRef E [] A = rrSchedule (subQueues E A) := by
  unfold midRef
  rw [rrSchedule_eq (subQueues E A)]
  have h1 : A.filterMap (fun b => (E.filter (authoredBy b)).head?) =
      (subQueues E A).filterMap List.head? := by
    unfold subQueues
    rw [List.filterMap_map]
    rfl
  have h2 : subQueues E ([] : List Nat) ++ (subQueues E A).map List.tail =
      (subQueues E A).map List.tail := by
    unfold subQueues
    simp
  rw [h1, h2]

theorem midRef_wrap (E : List Entry) (A : List Nat) :
    midRef E A [] = midRef E [] A := by
  rw [midRef_nilA]
  unfold midRef subQueues
  simp

theorem midRef_empty (A B : List Nat) : midRef [] A B = [] := by
  unfold midRef subQueues
  have h1 : B.filterMap (fun b => (([] : List Entry).filter (authoredBy b)).head?) = [] := by
    rw [List.filterMap_eq_nil_iff]
    intro a ha
    rfl
  have h2 : ∀ l ∈ A.map (fun a => ([] : List Entry).filter (authoredBy a)) ++
      (B.map (fun a => ([] : List Entry).filter (authoredBy a))).map List.tail,
      l = ([] : List Entry) := by
    intro l hl
    rcases List.mem_append.mp hl with h | h
    · obtain ⟨a, _, rfl⟩ := List.mem_map.mp h
      rfl
    · obtain ⟨l2, hl2, rfl⟩ := List.mem_map.mp h
      obtain ⟨a, _, rfl⟩ := List.mem_map.mp hl2
      rfl
  rw [h1, rrSchedule_nil_of_sum_zero]
  · rfl
  · rw [List.sum_eq_zero_iff]
    intro x hx
    obtain ⟨l, hl, rfl⟩ := List.mem_map.mp hx
    rw [h2 l hl]
    rfl

theorem midRef_noSong (E : List Entry) (A B : List Nat) (b : Nat)
    (hfind : get_next_song_from_author b E = none) :
    midRef E A (b :: B) = midRef E A B := by
  have hsub : E.filter (authoredBy b) = [] := by
    rw [List.filter_eq_nil_iff]
    intro e he
    have := List.find?_eq_none.mp hfind e he
    simpa [authoredBy] using this
  unfold midRef
  have hh : (E.filter (authoredBy b)).head? = none := by
    rw [hsub]
    rfl
  rw [List.filterMap_cons]
  simp only [hh]
  have h1 : (subQueues E (b :: B)).map List.tail =
      ([] : List Entry) :: (subQueues E B).map List.tail := by
    unfold subQueues
    rw [List.map_cons, List.map_cons, hsub]
    rfl
  rw [h1, rrSchedule_middle_nil (subQueues E A) ((subQueues E B).map List.tail)]

theorem midRef_found (E : List Entry) (A B : List Nat) (b : Nat) (song : Entry)
    (hfind : get_next_song_from_author b E = some song)
    (hbA : b ∉ A) (hbB : b ∉ B) :
    midRef E A (b :: B) = song :: midRef (E.erase song) (A ++ [b]) B := by
  obtain ⟨l1, l2, hsplit, hl1, herase⟩ := find?_split hfind
  have hsb : song.author = some b := by simpa using List.find?_some hfind
  have hl1f : l1.filter (authoredBy b) = [] := by
    rw [List.filter_eq_nil_iff]
    intro y hy
    simp [authoredBy, hl1 y hy]
  have hsub_b : E.filter (authoredBy b) = song :: l2.filter (authoredBy b) := by
    rw [hsplit, List.filter_append, hl1f, List.filter_cons]
    simp [authoredBy, hsb]
  have hsub_b' : (E.erase song).filter (authoredBy b) = l2.filter (authoredBy b) := by
    rw [herase, List.filter_append, hl1f]
    rfl
  have hsong_x : ∀ x : Nat, x ≠ b → authoredBy x song = false := by
    intro x hx
    simp [authoredBy, hsb]
    exact fun habs => hx habs.symm
  have hsub_x : ∀ x : Nat, x ≠ b →
      (E.erase song).filter (authoredBy x) = E.filter (authoredBy x) := by
    intro x hx
    rw [herase, hsplit, List.filter_append, List.filter_append, List.filter_cons]
    simp [hsong_x x hx]
  have hXA : subQueues (E.erase song) A = subQueues E A := by
    unfold subQueues
    exact List.map_congr_left (fun x hx => hsub_x x (fun habs => hbA (habs ▸ hx)))
  have hXB : subQueues (E.erase song) B = subQueues E B := by
    unfold subQueues
    exact List.map_congr_left (fun x hx => hsub_x x (fun habs => hbB (habs ▸ hx)))
  have hfmB : B.filterMap (fun y => ((E.erase song).filter (authoredBy y)).head?) =
      B.filterMap (fun y => (E.filter (authoredBy y)).head?) :=
    List.filterMap_congr
      (fun x hx => by rw [hsub_x x (fun habs => hbB (habs ▸ hx))])
  have htailb : (E.erase song).filter (authoredBy b) =
      (E.filter (authoredBy b)).tail := by
    rw [hsub_b, hsub_b']
    rfl
  have hh : (E.filter (authoredBy b)).head? = some song := by
    rw [hsub_b]
    rfl
  unfold midRef
  rw [List.filterMap_cons]
  simp only [hh]
  rw [List.cons_append]
  have hA' : subQueues (E.erase song) (A ++ [b]) =
      subQueues E A ++ [(E.filter (authoredBy b)).tail] := by
    unfold subQueues
    rw [List.map_append]
    have hA1 : A.map (fun x => (E.erase song).filter (authoredBy x)) =
        A.map (fun x => E.filter (authoredBy x)) :=
      List.map_congr_left (fun x hx => hsub_x x (fun habs => hbA (habs ▸ hx)))
    have hb1 : [b].map (fun x => (E.erase song).filter (authoredBy x)) =
        [(E.filter (authoredBy b)).tail] := by
      rw [List.map_cons, List.map_nil, htailb]
    rw [hA1, hb1]
  congr 1
  congr 1
  · exact hfmB.symm
  · congr 1
    rw [hA', hXB]
    have hcons : subQueues E (b :: B) =
        E.filter (authoredBy b) :: subQueues E B := rfl
    rw [hcons, List.map_cons]
    simp [List.append_assoc]

theorem collectAuthors_nodup_go (q : List Entry) :
    ∀ acc : List Nat, acc.Nodup →
      (q.foldl (fun acc e =>
        match e.author with
        | some b => if b ∈ acc then acc else acc ++ [b]
        | none => acc) acc).Nodup := by
  induction q with
  | nil =>
    intro acc h
    simpa using h
  | cons x t ih =>
    intro acc h
    rw [List.foldl_cons]
    apply ih
    cases hx : x.author with
    | none => simpa [hx] using h
    | some b =>
      by_cases hb : b ∈ acc
      · simpa [hx, hb] using h
      · simp only [hx, if_neg hb]
        rw [List.nodup_append]
        refine ⟨h, List.nodup_singleton b, ?_⟩
        intro y hy hy2
        rw [List.mem_singleton.mp hy2] at hy
        exact hb hy

theorem collectAuthors_nodup (q : List Entry) : (collectAuthors q).Nodup :=
  collectAuthors_nodup_go q [] List.nodup_nil

theorem rrLoop_wrap (entries : List Entry) (authors : List Nat) (acc : List Entry) :
    rrLoop entries authors authors.length acc = rrLoop entries authors 0 acc := by
  conv_lhs => rw [rrLoop.eq_def]
  conv_rhs => rw [rrLoop.eq_def]
  have h1 : resetCounter authors.length authors.length = 0 := by
    unfold resetCounter
    simp
  have h2 : resetCounter 0 authors.length = 0 := by
    unfold resetCounter
    split <;> rfl
  rw [h1, h2]

/-- Bridge invariant between the source loop and the reference schedule:
from a mid-round state (backlog `E`, author list `A ++ B`, rotating
pointer at position `A.length`), the loop succeeds and appends exactly the
owed schedule `midRef E A B` to the accumulator, provided every queued
entry is authored by someone still in the author list and the author list
has no duplicates. -/
theorem rrLoop_sched (E : List Entry) (A B : List Nat) (acc : List Entry)
    (hmem : ∀ e ∈ E, ∃ a, e.author = some a ∧ a ∈ A ++ B)
    (hnd : (A ++ B).Nodup) :
    rrLoop E (A ++ B) A.length acc = .ok (acc ++ midRef E A B) := by
  by_cases hne : E = []
  · subst hne
    rw [rrLoop_nil, midRef_empty, List.append_nil]
  · cases B with
    | cons b B' =>
      have hlenlt : A.length < (A ++ b :: B').length := by
        rw [List.length_append]
        simp
      have hrc : resetCounter A.length (A ++ b :: B').length = A.length := by
        unfold resetCounter
        rw [if_neg (by omega)]
      have hget : (A ++ b :: B').get? (resetCounter A.length (A ++ b :: B').length) =
          some b := by
        rw [hrc, List.get?_append_right (le_refl A.length)]
        simp
      have hbB' : b ∉ B' := by
        have h2 := (List.nodup_append.mp hnd).2.1
        exact (List.nodup_cons.mp h2).1
      have hbA : b ∉ A := by
        have h3 := (List.nodup_append.mp hnd).2.2
        intro hb
        exact h3 hb (List.mem_cons_self b B')
      cases hfind : get_next_song_from_author b E with
      | none =>
        rw [rrLoop_step_noSong E (A ++ b :: B') A.length acc hne b hget hfind, hrc]
        have her : (A ++ b :: B').eraseIdx A.length = A ++ B' := by
          rw [List.eraseIdx_eq_take_drop_succ, List.take_left]
          congr 1
          rw [show A ++ b :: B' = (A ++ [b]) ++ B' by simp,
            show A.length + 1 = (A ++ [b]).length by simp]
          exact List.drop_left (A ++ [b]) B'
        rw [her]
        have hmem' : ∀ e ∈ E, ∃ a, e.author = some a ∧ a ∈ A ++ B' := by
          intro e he
          obtain ⟨a, hea, haA⟩ := hmem e he
          refine ⟨a, hea, ?_⟩
          have hanb : a ≠ b := by
            intro habs
            have hno := List.find?_eq_none.mp hfind e he
            rw [hea, habs] at hno
            simp at hno
          rcases List.mem_append.mp haA with h | h
          · exact List.mem_append.mpr (Or.inl h)
          · rcases List.mem_cons.mp h with rfl | h2
            · exact absurd rfl hanb
            · exact List.mem_append.mpr (Or.inr h2)
        have hnd' : (A ++ B').Nodup := by
          have hsubl : List.Sublist (A ++ B') (A ++ b :: B') :=
            List.Sublist.append_left (List.sublist_cons_self b B') A
          exact List.Nodup.sublist hsubl hnd
        rw [rrLoop_sched E A B' acc hmem' hnd', midRef_noSong E A B' b hfind]
      | some song =>
        rw [rrLoop_step_found E (A ++ b :: B') A.length acc hne b song hget hfind, hrc]
        have hsongmem : song ∈ E := List.mem_of_find?_eq_some hfind
        have hmem' : ∀ e ∈ E.erase song,
            ∃ a, e.author = some a ∧ a ∈ (A ++ [b]) ++ B' := by
          intro e he
          obtain ⟨a, hea, haA⟩ := hmem e (List.mem_of_mem_erase he)
          exact ⟨a, hea, by simpa using haA⟩
        have hnd2 : ((A ++ [b]) ++ B').Nodup := by simpa using hnd
        rw [show A ++ b :: B' = (A ++ [b]) ++ B' by simp,
          show A.length + 1 = (A ++ [b]).length by simp,
          rrLoop_sched (E.erase song) (A ++ [b]) B' (acc ++ [song]) hmem' hnd2,
          midRef_found E A B' b song hfind hbA hbB']
        simp
    | nil =>
      rw [List.append_nil]
      rw [List.append_nil] at hmem hnd
      rw [rrLoop_wrap E A acc, midRef_wrap E A]
      obtain ⟨e0, he0⟩ := List.exists_mem_of_ne_nil E hne
      obtain ⟨a0, _, ha0⟩ := hmem e0 he0
      cases A with
      | nil => exact absurd ha0 (List.not_mem_nil a0)
      | cons a A2 =>
        have hr0 : resetCounter 0 (a :: A2).length = 0 := by
          unfold resetCounter
          split <;> rfl
        have hget0 : (a :: A2).get? (resetCounter 0 (a :: A2).length) = some a := by
          rw [hr0]
          rfl
        have haA2 : a ∉ A2 := (List.nodup_cons.mp hnd).1
        cases hfind : get_next_song_from_author a E with
        | none =>
          rw [rrLoop_step_noSong E (a :: A2) 0 acc hne a hget0 hfind, hr0,
            show (a :: A2).eraseIdx 0 = A2 from rfl]
          have hmem' : ∀ e ∈ E, ∃ x, e.author = some x ∧ x ∈ ([] : List Nat) ++ A2 := by
            intro e he
            obtain ⟨x, hex, hxA⟩ := hmem e he
            refine ⟨x, hex, ?_⟩
            have hxa : x ≠ a := by
              intro habs
              have hno := List.find?_eq_none.mp hfind e he
              rw [hex, habs] at hno
              simp at hno
            rcases List.mem_cons.mp hxA with rfl | h2
            · exact absurd rfl hxa
            · simpa using h2
          have hnd' : (([] : List Nat) ++ A2).Nodup := by
            simpa using (List.nodup_cons.mp hnd).2
          have h := rrLoop_sched E [] A2 acc hmem' hnd'
          simp only [List.nil_append, List.length_nil] at h
          rw [h, midRef_noSong E [] A2 a hfind]
        | some song =>
          rw [rrLoop_step_found E (a :: A2) 0 acc hne a song hget0 hfind, hr0]
          have hsongmem : song ∈ E := List.mem_of_find?_eq_some hfind
          have hmem' : ∀ e ∈ E.erase song,
              ∃ x, e.author = some x ∧ x ∈ [a] ++ A2 := by
            intro e he
            obtain ⟨x, hex, hxA⟩ := hmem e (List.mem_of_mem_erase he)
            exact ⟨x, hex, by simpa using hxA⟩
          have hnd2 : ([a] ++ A2).Nodup := by simpa using hnd
          have h := rrLoop_sched (E.erase song) [a] A2 (acc ++ [song]) hmem' hnd2
          simp only [List.singleton_append, List.length_singleton] at h
          rw [show (0 : Nat) + 1 = 1 from rfl, h,
            midRef_found E [] A2 a song hfind (List.not_mem_nil a) haA2]
          simp
termination_by E.length + (A ++ B).length
decreasing_by
  all_goals first
  | (simp_all only [List.length_append, List.length_cons, List.length_nil]
     omega)
  | (have hlen : (E.erase song).length = E.length - 1 :=
       List.length_erase_of_mem hsongmem
     have hpos : 0 < E.length := List.length_pos.mpr hne
     simp_all only [List.length_append, List.length_cons, List.length_nil]
     omega)

/-- C3 (amended): restricted to queues in which every entry has an author,
`reorder_for_round_robin` terminates normally, its result is exactly the
reference round-robin schedule `rrSchedule` over the per-author
subsequences taken in order of the authors' first appearance — i.e.
distinct authors' earliest remaining entries are served in round-robin
turn — and in particular the result is a permutation of the same entries
in which each author's entries keep their relative order (being a Lean
function, the result is deterministic in the queue contents); on
`[X(author 1), Y(author 2), Z(author 1)]` the result is exactly
`[X, Y, Z]`. -/
theorem round_robin_fair_props :
    (∀ q : List Entry, (∀ e ∈ q, e.author ≠ none) →
      reorder_for_round_robin q = .ok (rrSchedule (subQueues q (collectAuthors q))) ∧
      ∃ res, reorder_for_round_robin q = .ok res ∧ res.Perm q ∧
        ∀ b : Nat, res.filter (authoredBy b) = q.filter (authoredBy b)) ∧
    reorder_for_round_robin
        [⟨0, some 1, some 10, .ok⟩, ⟨1, some 2, some 5, .ok⟩, ⟨2, some 1, some 7, .ok⟩] =
      .ok [⟨0, some 1, some 10, .ok⟩, ⟨1, some 2, some 5, .ok⟩, ⟨2, some 1, some 7, .ok⟩] := by
  constructor
  · intro q hq
    have hmem : ∀ e ∈ q, ∃ a, e.author = some a ∧ a ∈ collectAuthors q := by
      intro e he
      cases hea : e.author with
      | none => exact absurd hea (hq e he)
      | some a => exact ⟨a, rfl, mem_collectAuthors he hea⟩
    constructor
    · have hmem2 : ∀ e ∈ q, ∃ a, e.author = some a ∧
          a ∈ ([] : List Nat) ++ collectAuthors q := by
        simpa using hmem
      have hnd : (([] : List Nat) ++ collectAuthors q).Nodup := by
        simpa using collectAuthors_nodup q
      have hs := rrLoop_sched q [] (collectAuthors q) [] hmem2 hnd
      simp only [List.nil_append, List.length_nil] at hs
      rw [midRef_nilA] at hs
      unfold reorder_for_round_robin
      rw [hs]
    · obtain ⟨res, hres, hperm, hfilt⟩ :=
        rrLoop_ok q (collectAuthors q) 0 [] (Nat.zero_le _) hmem
      exact ⟨res, hres, by simpa using hperm, fun b => by simpa using hfilt b⟩
  · show rrLoop
      [⟨0, some 1, some 10, .ok⟩, ⟨1, some 2, some 5, .ok⟩, ⟨2, some 1, some 7, .ok⟩]
      [1, 2] 0 [] = _
    have h1 := rrLoop_step_found
      [⟨0, some 1, some 10, .ok⟩, ⟨1, some 2, some 5, .ok⟩, ⟨2, some 1, some 7, .ok⟩]
      [1, 2] 0 [] (by simp) 1 ⟨0, some 1, some 10, .ok⟩ rfl rfl
    have h2 := rrLoop_step_found
      [⟨1, some 2, some 5, .ok⟩, ⟨2, some 1, some 7, .ok⟩]
      [1, 2] 1 [⟨0, some 1, some 10, .ok⟩] (by simp) 2 ⟨1, some 2, some 5, .ok⟩ rfl rfl
    have h3 := rrLoop_step_found
      [⟨2, some 1, some 7, .ok⟩]
      [1, 2] 2 [⟨0, some 1, some 10, .ok⟩, ⟨1, some 2, some 5, .ok⟩] (by simp) 1
      ⟨2, some 1, some 7, .ok⟩ rfl rfl
    simp only [resetCounter] at h1 h2 h3
    norm_num at h1 h2 h3
    rw [h1, h2, h3, rrLoop_nil]

/-- Witness for the universal part of the amended C3, at the spec's
example queue. -/
theorem round_robin_fair_props_witness :
    reorder_for_round_robin
        [⟨0, some 1, some 10, .ok⟩, ⟨1, some 2, some 5, .ok⟩, ⟨2, some 1, some 7, .ok⟩] =
      .ok (rrSchedule (subQueues
        [⟨0, some 1, some 10, .ok⟩, ⟨1, some 2, some 5, .ok⟩, ⟨2, some 1, some 7, .ok⟩]
        (collectAuthors
          [⟨0, some 1, some 10, .ok⟩, ⟨1, some 2, some 5, .ok⟩,
            ⟨2, some 1, some 7, .ok⟩]))) ∧
    ∃ res, reorder_for_round_robin
        [⟨0, some 1, some 10, .ok⟩, ⟨1, some 2, some 5, .ok⟩, ⟨2, some 1, some 7, .ok⟩] =
          .ok res ∧
      res.Perm [⟨0, some 1, some 10, .ok⟩, ⟨1, some 2, some 5, .ok⟩,
        ⟨2, some 1, some 7, .ok⟩] ∧
      ∀ b : Nat, res.filter (authoredBy b) =
        [⟨0, some 1, some 10, .ok⟩, ⟨1, some 2, some 5, .ok⟩,
          (⟨2, some 1, some 7, .ok⟩ : Entry)].filter (authoredBy b) :=
  round_robin_fair_props.1
    [⟨0, some 1, some 10, .ok⟩, ⟨1, some 2, some 5, .ok⟩, ⟨2, some 1, some 7, .ok⟩]
    (by decide)

/-- Python `deque.rotate(j)`: rotate right by `j` steps (negative `j`
rotates left); accepts any integer, is a no-op on an empty deque, and
wraps modulo the current length.  Rotating right by `j` on a deque of
length `n` equals rotating left by `(-j) mod n`. -/
def dequeRotate (l : List Entry) (j : Int) : List Entry :=
  if l.length = 0 then l
  else l.rotate ((-j % (l.length : Int)).toNat)

/-- `Playlist.get_entry_at_index(index)`: `rotate(-index)`, read
`entries[0]`, `rotate(index)` back.  Result: the entry read (IndexError on
an empty queue is modelled by `none`; in that case the rotations were the
identity anyway) and the backlog afterwards. -/
def get_entry_at_index (q : List Entry) (i : Int) : Option Entry × List Entry :=
  ((dequeRotate q (-i)).head?, dequeRotate (dequeRotate q (-i)) i)

/-- `Playlist.delete_entry_at_index(index)`: `rotate(-index)`, `popleft()`,
`rotate(index)` back.  Result: the removed entry (or `none` for the
IndexError of popping an empty deque, which leaves the deque empty) and
the backlog afterwards. -/
def delete_entry_at_index (q : List Entry) (i : Int) : Option Entry × List Entry :=
  match dequeRotate q (-i) with
  | [] => (none, [])
  | e :: rest => (some e, dequeRotate rest i)

/-- `Playlist.insert_entry_at_index(index, entry)`: `rotate(-index)`,
`appendleft(entry)`, `rotate(index)` back.  Note the final rotation acts
on a deque that is one element longer than the one the first rotation
acted on. -/
def insert_entry_at_index (q : List Entry) (i : Int) (e : Entry) : List Entry :=
  dequeRotate (e :: dequeRotate q (-i)) i

theorem dequeRotate_zero (l : List Entry) : dequeRotate l 0 = l := by
  unfold dequeRotate
  split
  · rfl
  · simp

theorem dequeRotate_neg (q : List Entry) (i : Int) (h : q ≠ []) :
    dequeRotate q (-i) = q.rotate ((i % (q.length : Int)).toNat) := by
  unfold dequeRotate
  rw [if_neg (by simpa using h)]
  rw [neg_neg]

theorem emod_toNat_lt (i : Int) (n : Nat) (hn : 0 < n) : (i % (n : Int)).toNat < n := by
  have h1 : i % (n : Int) < n := Int.emod_lt_of_pos i (by exact_mod_cast hn)
  have h0 : 0 ≤ i % (n : Int) := Int.emod_nonneg i (by
    intro habs
    rw [show ((n : Int) = 0) ↔ (n = 0) from by exact_mod_cast Iff.rfl] at habs
    omega)
  omega

theorem emod_toNat_add_neg (i : Int) (n : Nat) (hn : 0 < n) :
    ((i % (n : Int)).toNat + ((-i) % (n : Int)).toNat) % n = 0 := by
  have hn0 : (n : Int) ≠ 0 := by exact_mod_cast Nat.pos_iff_ne_zero.mp hn
  have ha0 : 0 ≤ i % (n : Int) := Int.emod_nonneg i hn0
  have ha1 : i % (n : Int) < n := Int.emod_lt_of_pos i (by exact_mod_cast hn)
  have hb0 : 0 ≤ (-i) % (n : Int) := Int.emod_nonneg _ hn0
  have hb1 : (-i) % (n : Int) < n := Int.emod_lt_of_pos _ (by exact_mod_cast hn)
  have hsum : (i % (n : Int) + (-i) % (n : Int)) % n = 0 := by
    rw [← Int.add_emod]
    simp
  obtain ⟨c, hc⟩ := Int.dvd_of_emod_eq_zero hsum
  have hc01 : c = 0 ∨ c = 1 := by
    by_contra hcon
    push_neg at hcon
    rcases Int.lt_or_lt_of_ne hcon.1 with hlt0 | hgt0
    · have hneg : (n : Int) * c < 0 :=
        mul_neg_of_pos_of_neg (by exact_mod_cast hn) hlt0
      omega
    · have hge2 : (2 : Int) ≤ c := by omega
      have h2n : (n : Int) * 2 ≤ (n : Int) * c :=
        mul_le_mul_of_nonneg_left hge2 (by positivity)
      omega
  rcases hc01 with rfl | rfl
  · rw [mul_zero] at hc
    have h0 : (i % (n : Int)).toNat = 0 ∧ ((-i) % (n : Int)).toNat = 0 := by omega
    rw [h0.1, h0.2]
    simp
  · rw [mul_one] at hc
    have h1 : (i % (n : Int)).toNat + ((-i) % (n : Int)).toNat = n := by omega
    rw [h1]
    exact Nat.mod_self n

theorem dequeRotate_restore (q : List Entry) (i : Int) (h : q ≠ []) :
    dequeRotate (dequeRotate q (-i)) i = q := by
  have hn : 0 < q.length := List.length_pos.mpr h
  rw [dequeRotate_neg q i h]
  unfold dequeRotate
  rw [if_neg (by rw [List.length_rotate]; omega)]
  rw [List.length_rotate, List.rotate_rotate, ← List.rotate_mod,
    emod_toNat_add_neg i q.length hn, List.rotate_zero]

theorem neg_emod_toNat (i m : Nat) (h1 : 1 ≤ i) (h2 : i ≤ m) :
    ((-(i : Int)) % (m : Int)).toNat = m - i := by
  have heq : (-(i : Int)) % m = ((m : Int) - i) % m := by
    have hrw : (m : Int) - i = -(i : Int) + (m : Int) * 1 := by ring
    rw [hrw, Int.add_mul_emod_self_left]
  have hlt : ((m : Int) - i) % m = (m : Int) - i :=
    Int.emod_eq_of_lt (by omega) (by omega)
  rw [heq, hlt]
  omega

/-- C8: for an in-range index, `delete_entry_at_index` removes and returns
the entry at logical position `i` (0 = head) and leaves the remaining
entries in their original relative order. -/
theorem delete_entry_at_index_in_range (q : List Entry) (i : Nat) (h : i < q.length) :
    delete_entry_at_index q (i : Int) = (some q[i], q.take i ++ q.drop (i + 1)) := by
  have hne : q ≠ [] := by
    intro habs
    subst habs
    simp at h
  have hcast : (((i : Int)) % (q.length : Int)).toNat = i := by
    rw [Int.emod_eq_of_lt (by omega) (by exact_mod_cast h)]
    omega
  unfold delete_entry_at_index
  rw [dequeRotate_neg q (i : Int) hne, hcast]
  have hrot : q.rotate i = q[i] :: (q.drop (i + 1) ++ q.take i) := by
    rw [List.rotate_eq_drop_append_take (le_of_lt h), List.drop_eq_getElem_cons h]
    rfl
  rw [hrot]
  show (some q[i], dequeRotate (q.drop (i + 1) ++ q.take i) (i : Int)) = _
  by_cases hi : i = 0
  · subst hi
    rw [show ((0 : Nat) : Int) = 0 from rfl, dequeRotate_zero]
    simp
  · have hm : (q.drop (i + 1) ++ q.take i).length = q.length - 1 := by
      rw [List.length_append, List.length_drop, List.length_take]
      omega
    unfold dequeRotate
    rw [if_neg (by rw [hm]; omega)]
    rw [hm, neg_emod_toNat i (q.length - 1) (by omega) (by omega)]
    have hA : (q.drop (i + 1)).length = q.length - 1 - i := by
      rw [List.length_drop]
      omega
    rw [← hA, List.rotate_append_length_eq]

/-- Witness for C8 on the spec's scenario: `delete_entry_at_index(1)` on
`[X, Y, Z]` returns `Y` and leaves `[X, Z]`. -/
theorem delete_entry_at_index_in_range_witness :
    delete_entry_at_index
        [⟨0, none, none, .ok⟩, ⟨1, none, none, .ok⟩, ⟨2, none, none, .ok⟩] (1 : Int) =
      (some ⟨1, none, none, .ok⟩, [⟨0, none, none, .ok⟩, ⟨2, none, none, .ok⟩]) := by
  have h := delete_entry_at_index_in_range
    [⟨0, none, none, .ok⟩, ⟨1, none, none, .ok⟩, ⟨2, none, none, .ok⟩] 1 (by decide)
  simpa using h

/-- C10 counterexample: inserting at index `n` into a queue of length
`n = 3` places the entry at the *tail*, not the head as claimed — after
`appendleft` the closing `rotate(3)` acts on a 4-element deque and so
rotates by `3 mod 4`, carrying the new entry to the back. -/
theorem insert_at_length_cex :
    insert_entry_at_index
        [⟨0, none, none, .ok⟩, ⟨1, none, none, .ok⟩, ⟨2, none, none, .ok⟩] (3 : Int)
        ⟨3, none, none, .ok⟩ =
      [⟨0, none, none, .ok⟩, ⟨1, none, none, .ok⟩, ⟨2, none, none, .ok⟩,
        ⟨3, none, none, .ok⟩] ∧
    (insert_entry_at_index
        [⟨0, none, none, .ok⟩, ⟨1, none, none, .ok⟩, ⟨2, none, none, .ok⟩] (3 : Int)
        ⟨3, none, none, .ok⟩).head? ≠ some ⟨3, none, none, .ok⟩ := by
  constructor
  · rfl
  · decide

/-- C10 (amended): on a non-empty queue of length `n`, `get_entry_at_index`
and `delete_entry_at_index` accept *every* integer index (no error): the
rotation wraps, both return the entry at logical position `i mod n`, and
`get_entry_at_index` restores the backlog unchanged.
`insert_entry_at_index` also never errors, but its closing rotation acts
on `n + 1` elements: inserting at index `n` places the entry at the tail
(not the head, and not at `n mod n = 0`). -/
theorem positional_index_wrapping (q : List Entry) (i : Int) (e : Entry) (h : q ≠ []) :
    get_entry_at_index q i = (q.get? ((i % (q.length : Int)).toNat), q) ∧
    (delete_entry_at_index q i).1 = q.get? ((i % (q.length : Int)).toNat) ∧
    insert_entry_at_index q (q.length : Int) e = q ++ [e] := by
  have hn : 0 < q.length := List.length_pos.mpr h
  have hmod := emod_toNat_lt i q.length hn
  refine ⟨?_, ?_, ?_⟩
  · unfold get_entry_at_index
    rw [dequeRotate_restore q i h, dequeRotate_neg q i h, List.head?_rotate hmod]
    rw [List.get?_eq_getElem?]
  · unfold delete_entry_at_index
    rw [dequeRotate_neg q i h]
    have hhd := List.head?_rotate (l := q) hmod
    cases hr : q.rotate ((i % (q.length : Int)).toNat) with
    | nil =>
      exact absurd (List.rotate_eq_nil_iff.mp hr) h
    | cons x rest =>
      rw [hr] at hhd
      simp only [List.head?_cons] at hhd
      rw [List.get?_eq_getElem?, ← hhd]
  · unfold insert_entry_at_index
    have hq : dequeRotate q (-(q.length : Int)) = q := by
      rw [dequeRotate_neg q (q.length : Int) h]
      rw [Int.emod_self]
      simp
    rw [hq]
    unfold dequeRotate
    rw [if_neg (by simp)]
    have hlen : ((e :: q).length : Int) = (q.length : Int) + 1 := by
      simp
    rw [hlen]
    have hmod1 : (-(q.length : Int) % ((q.length : Int) + 1)).toNat = 1 := by
      have heq : (-(q.length : Int)) % ((q.length : Int) + 1) =
          (1 : Int) % ((q.length : Int) + 1) := by
        have hrw : -(q.length : Int) = 1 + ((q.length : Int) + 1) * (-1) := by ring
        rw [hrw, Int.add_mul_emod_self_left]
      rw [heq, Int.emod_eq_of_lt (by omega) (by omega)]
      rfl
    rw [hmod1]
    rw [show (e :: q).rotate 1 = (([e] : List Entry) ++ q).rotate [e].length from rfl,
      List.rotate_append_length_eq]

/-- Witness for the amended C10 at a concrete queue and an out-of-range
index. -/
theorem positional_index_wrapping_witness :
    get_entry_at_index [⟨0, none, none, .ok⟩, ⟨1, none, none, .ok⟩] (5 : Int) =
        ([⟨0, none, none, .ok⟩, (⟨1, none, none, .ok⟩ : Entry)].get?
          (((5 : Int) % (([⟨0, none, none, .ok⟩, (⟨1, none, none, .ok⟩ : Entry)].length :
            Int))).toNat),
         [⟨0, none, none, .ok⟩, ⟨1, none, none, .ok⟩]) ∧
    (delete_entry_at_index [⟨0, none, none, .ok⟩, ⟨1, none, none, .ok⟩] (5 : Int)).1 =
      [⟨0, none, none, .ok⟩, (⟨1, none, none, .ok⟩ : Entry)].get?
        (((5 : Int) % (([⟨0, none, none, .ok⟩, (⟨1, none, none, .ok⟩ : Entry)].length :
          Int))).toNat) ∧
    insert_entry_at_index [⟨0, none, none, .ok⟩, ⟨1, none, none, .ok⟩]
        (([⟨0, none, none, .ok⟩, (⟨1, none, none, .ok⟩ : Entry)].length : Int))
        ⟨9, none, none, .ok⟩ =
      [⟨0, none, none, .ok⟩, ⟨1, none, none, .ok⟩] ++ [⟨9, none, none, .ok⟩] :=
  positional_index_wrapping [⟨0, none, none, .ok⟩, ⟨1, none, none, .ok⟩] 5
    ⟨9, none, none, .ok⟩ (by simp)

/-- The ways `Playlist.estimate_time_until` can fail: `islice` raises
`ValueError` when handed a negative stop (`position - 1 < 0`), and missing
duration data raises `musicbot.exceptions.InvalidDataError`. -/
inductive EstError where
  | valueError
  | invalidDataError
deriving DecidableEq, Repr

/-- The slice of `MusicPlayer` state read by `estimate_time_until`:
`is_stopped`, `current_entry`, and playback `progress` in seconds. -/
structure Player where
  is_stopped : Bool
  current_entry : Option Entry
  progress : Int
deriving DecidableEq, Repr

/-- `Playlist.estimate_time_until(position, player)`.
`islice(self.entries, position - 1)` raises `ValueError` for a negative
stop, i.e. whenever `position ≤ 0`; otherwise exactly the first
`position - 1` queued entries are inspected: if any of them lacks a
duration, `InvalidDataError`; their durations are summed, and if the
player is not stopped and has a current entry the remainder
`current.duration - progress` is added (`InvalidDataError` if that
duration is unknown).  Durations are modelled as whole seconds, with the
entry-built `duration_td` (spec Entry contract: `duration` = seconds)
contributing its `duration` value. -/
def windowSum (q : List Entry) (k : Nat) : Int :=
  (q.take k).foldl (fun s e => s + (e.duration.getD 0 : Int)) 0

def estimate_time_until (q : List Entry) (position : Int) (player : Player) :
    Except EstError Int :=
  if position - 1 < 0 then .error .valueError
  else if (q.take (position - 1).toNat).any (fun e => e.duration.isNone) then
    .error .invalidDataError
  else if player.is_stopped then .ok (windowSum q (position - 1).toNat)
  else
    match player.current_entry with
    | none => .ok (windowSum q (position - 1).toNat)
    | some c =>
      if c.duration.isNone then .error .invalidDataError
      else .ok (windowSum q (position - 1).toNat +
        (c.duration.getD 0 : Int) - player.progress)

/-- C5 counterexample: on a non-empty queue with the player stopped,
`estimate_time_until(0, player)` does not return a zero duration — the
call `islice(self.entries, -1)` raises `ValueError`. -/
theorem estimate_time_until_zero_cex :
    estimate_time_until [⟨0, none, some 10, .ok⟩] 0 ⟨true, none, 0⟩ =
      .error .valueError := rfl

/-- C5 (amended): `position` is treated as 1-based by
`estimate_time_until`: with the player stopped, position `0` raises
`ValueError` (via `islice`'s negative stop), while position `1` — the head
of the queue — yields the zero duration the claim expects. -/
theorem estimate_time_until_head (q : List Entry) (player : Player)
    (hq : q ≠ []) (hs : player.is_stopped = true) :
    estimate_time_until q 0 player = .error .valueError ∧
      estimate_time_until q 1 player = .ok 0 := by
  constructor
  · rfl
  · unfold estimate_time_until
    norm_num [hs, windowSum]

/-- Witness for the amended C5 at a concrete non-empty queue. -/
theorem estimate_time_until_head_witness :
    estimate_time_until [⟨0, none, some 10, .ok⟩] 0 ⟨true, none, 0⟩ =
        .error .valueError ∧
      estimate_time_until [⟨0, none, some 10, .ok⟩] 1 ⟨true, none, 0⟩ = .ok 0 :=
  estimate_time_until_head [⟨0, none, some 10, .ok⟩] ⟨true, none, 0⟩ (by simp) rfl

/-- C6 counterexample: the duration check windows `islice(entries,
position - 1)`, not the entries strictly before `position`: with a single
unknown-duration entry and `position = 1` the claim demands
`InvalidDataError`, but the code inspects zero entries and returns a
zero estimate. -/
theorem estimate_time_until_window_cex :
    estimate_time_until [⟨0, none, none, .ok⟩] 1 ⟨true, none, 0⟩ = .ok 0 := rfl

/-- C6 (amended): for `position ≥ 1`, `estimate_time_until` raises
`InvalidDataError` whenever one of the first `position - 1` queued entries
(the entries strictly before the 1-based position) has unknown duration,
or the player is playing a current entry of unknown duration; the
estimate is refused rather than a value returned. -/
theorem estimate_time_until_refuses (q : List Entry) (position : Int) (player : Player)
    (hpos : 1 ≤ position)
    (h : (∃ e ∈ q.take (position - 1).toNat, e.duration = none) ∨
         (player.is_stopped = false ∧
           ∃ c, player.current_entry = some c ∧ c.duration = none)) :
    estimate_time_until q position player = .error .invalidDataError := by
  unfold estimate_time_until
  rw [if_neg (by omega)]
  by_cases hany : (q.take (position - 1).toNat).any (fun e => e.duration.isNone) = true
  · rw [if_pos hany]
  · rw [if_neg hany]
    rcases h with hwin | ⟨hstop, c, hc, hcd⟩
    · exfalso
      apply hany
      obtain ⟨e, he, hed⟩ := hwin
      exact List.any_eq_true.mpr ⟨e, he, by simp [hed]⟩
    · rw [if_neg (by simp [hstop]), hc]
      simp [hcd]

/-- Witness for the amended C6: one unknown-duration entry at the head and
`position = 2`. -/
theorem estimate_time_until_refuses_witness :
    estimate_time_until [⟨0, none, none, .ok⟩] 2 ⟨true, none, 0⟩ =
      .error .invalidDataError :=
  estimate_time_until_refuses [⟨0, none, none, .ok⟩] 2 ⟨true, none, 0⟩ (by norm_num)
    (Or.inl ⟨⟨0, none, none, .ok⟩, by decide, rfl⟩)

/-- Envelope written by `Serializable._enclose_json` for one entry: class
signature (`__class__`, `__module__`) plus the entry's own payload.
Modelled from the spec: `musicbot/entry.py` is not among the sources; the
Entry contract says each entry supplies its own envelope-compatible
(de)serialization, reconstructed via the signature. -/
structure EntryEnvelope where
  cls : String
  module : String
  data : Entry
deriving DecidableEq, Repr

/-- Modelled from the spec: the entry side of serialization — wrap the
entry's fields in its signed envelope. -/
def entry_json (e : Entry) : EntryEnvelope :=
  ⟨"URLPlaylistEntry", "musicbot.entry", e⟩

/-- Modelled from the spec: the entry side of deserialization — check the
class signature and rebuild the entry from the payload. -/
def entry_deserialize (env : EntryEnvelope) : Option Entry :=
  if env.cls = "URLPlaylistEntry" ∧ env.module = "musicbot.entry" then some env.data
  else none

/-- The envelope produced by `Playlist.__json__` via `_enclose_json`:
class signature plus `data = {"entries": list(self.entries)}`, each entry
serialized by its own contract. -/
structure PlaylistEnvelope where
  cls : String
  module : String
  entries : List EntryEnvelope
deriving DecidableEq, Repr

/-- `Playlist.__json__`. -/
def playlist_json (q : List Entry) : PlaylistEnvelope :=
  ⟨"Playlist", "musicbot.playlist", q.map entry_json⟩

/-- The entry-append loop of `Playlist._deserialize`: start from a fresh
playlist (empty backlog) and append each decoded entry in stored order. -/
def playlist_deserialize_entries (decoded : List Entry) : List Entry :=
  decoded.foldl (fun acc e => acc ++ [e]) []

/-- `Serializer.deserialize` applied to a playlist envelope: check the
class signature, locate the reconstructor, and call
`Playlist._deserialize`; nested entry envelopes decode first (object
hooks fire innermost-first), failing if any entry envelope is unsigned. -/
def serializer_deserialize (env : PlaylistEnvelope) : Option (List Entry) :=
  if env.cls = "Playlist" ∧ env.module = "musicbot.playlist" then
    (env.entries.mapM entry_deserialize).map playlist_deserialize_entries
  else none

theorem entry_roundtrip (e : Entry) : entry_deserialize (entry_json e) = some e := by
  unfold entry_deserialize entry_json
  rw [if_pos ⟨rfl, rfl⟩]

theorem foldl_append_singleton (q : List Entry) :
    ∀ acc : List Entry, q.foldl (fun acc e => acc ++ [e]) acc = acc ++ q := by
  induction q with
  | nil => simp
  | cons e t ih =>
    intro acc
    rw [List.foldl_cons, ih (acc ++ [e])]
    simp

/-- C7: deserializing the serialized envelope of a queue yields the same
ordered entry list (round-trip law). -/
theorem serialize_roundtrip (q : List Entry) :
    serializer_deserialize (playlist_json q) = some q := by
  unfold serializer_deserialize playlist_json
  rw [if_pos ⟨rfl, rfl⟩]
  have hmap : (q.map entry_json).mapM entry_deserialize = some q := by
    induction q with
    | nil => rfl
    | cons e t ih =>
      rw [List.map_cons, List.mapM_cons, entry_roundtrip e, ih]
      rfl
  rw [hmap]
  show some (playlist_deserialize_entries q) = some q
  unfold playlist_deserialize_entries
  rw [foldl_append_singleton q []]
  rfl

/-- A registered event handler as `EventEmitter.emit` consumes it: whether
`asyncio.iscoroutinefunction(cb)` holds, and whether calling it raises an
`Exception` (for a coroutine function the call merely creates the
coroutine — a raise inside it happens later in the scheduled task, not
here). -/
structure Handler where
  hid : Nat
  isCoroutine : Bool
  raises : Bool
deriving DecidableEq, Repr

/-- The chronological log of `on(event, cb)` registrations.
`self._events[event]` is its per-event view in registration order. -/
abbrev Registry := List (String × Handler)

/-- `EventEmitter.on`. -/
def on_event (st : Registry) (event : String) (cb : Handler) : Registry :=
  st ++ [(event, cb)]

/-- The list `self._events[event]` that `emit` snapshots. -/
def handlersFor (st : Registry) (event : String) : List Handler :=
  (st.filter (fun p => p.1 = event)).map (fun p => p.2)

/-- Synchronously calling a plain handler; `Except.error` is an uncaught
`Exception` escaping the call. -/
def callHandler (cb : Handler) : Except Unit Unit :=
  if cb.raises then .error () else .ok ()

/-- Observable outcome of one `emit` call: handlers reached (in order),
coroutine handlers scheduled via `ensure_future`, and handlers whose raise
was caught and reported via `traceback.print_exc()`. -/
structure EmitResult where
  invoked : List Nat
  scheduled : List Nat
  captured : List Nat
deriving DecidableEq, Repr

/-- `EventEmitter.emit(event, ...)`: return immediately if the event has no
handler list, else iterate over a snapshot of `self._events[event]`; each
coroutine function is scheduled (not awaited), each plain callable is
called, and an `Exception` raised by the call is caught and reported so
the remaining handlers still run. -/
def emit (st : Registry) (event : String) : EmitResult :=
  (handlersFor st event).foldl
    (fun acc cb =>
      if cb.isCoroutine then
        { acc with invoked := acc.invoked ++ [cb.hid],
                   scheduled := acc.scheduled ++ [cb.hid] }
      else
        match callHandler cb with
        | .ok _ => { acc with invoked := acc.invoked ++ [cb.hid] }
        | .error _ => { acc with invoked := acc.invoked ++ [cb.hid],
                                 captured := acc.captured ++ [cb.hid] })
    ⟨[], [], []⟩

theorem emit_go (hs : List Handler) :
    ∀ acc : EmitResult,
      (hs.foldl
        (fun acc cb =>
          if cb.isCoroutine then
            { acc with invoked := acc.invoked ++ [cb.hid],
                       scheduled := acc.scheduled ++ [cb.hid] }
          else
            match callHandler cb with
            | .ok _ => { acc with invoked := acc.invoked ++ [cb.hid] }
            | .error _ => { acc with invoked := acc.invoked ++ [cb.hid],
                                     captured := acc.captured ++ [cb.hid] })
        acc).invoked = acc.invoked ++ hs.map (fun cb => cb.hid) ∧
      (hs.foldl
        (fun acc cb =>
          if cb.isCoroutine then
            { acc with invoked := acc.invoked ++ [cb.hid],
                       scheduled := acc.scheduled ++ [cb.hid] }
          else
            match callHandler cb with
            | .ok _ => { acc with invoked := acc.invoked ++ [cb.hid] }
            | .error _ => { acc with invoked := acc.invoked ++ [cb.hid],
                                     captured := acc.captured ++ [cb.hid] })
        acc).captured =
        acc.captured ++ (hs.filter (fun cb => !cb.isCoroutine && cb.raises)).map
          (fun cb => cb.hid) := by
  induction hs with
  | nil => intro acc; simp
  | cons cb t ih =>
    intro acc
    rw [List.foldl_cons]
    by_cases hco : cb.isCoroutine
    · have h1 := ih { acc with invoked := acc.invoked ++ [cb.hid],
                               scheduled := acc.scheduled ++ [cb.hid] }
      simp only [hco, if_true, List.filter_cons]
      simp [h1.1, h1.2, hco]
    · by_cases hr : cb.raises
      · have hcall : callHandler cb = .error () := by
          unfold callHandler
          rw [if_pos hr]
        have h1 := ih { acc with invoked := acc.invoked ++ [cb.hid],
                                 captured := acc.captured ++ [cb.hid] }
        simp only [hco, if_false, hcall, List.filter_cons]
        simp [h1.1, h1.2, hco, hr]
      · have hcall : callHandler cb = .ok () := by
          unfold callHandler
          rw [if_neg hr]
        have h1 := ih { acc with invoked := acc.invoked ++ [cb.hid] }
        simp only [hco, if_false, hcall, List.filter_cons]
        simp [h1.1, h1.2, hco, hr]

/-- C9: `emit` reaches every handler registered for the event, in
registration order (coroutine functions are scheduled, plain callables are
called), and a handler whose call raises has its error captured and
reported rather than propagated — it never prevents the remaining
handlers from being invoked, as the invoked list always covers all
registered handlers. -/
theorem emit_invokes_all (st : Registry) (event : String) :
    (emit st event).invoked = (handlersFor st event).map (fun cb => cb.hid) ∧
    (emit st event).captured =
      ((handlersFor st event).filter
        (fun cb => !cb.isCoroutine && cb.raises)).map (fun cb => cb.hid) := by
  have h := emit_go (handlersFor st event) ⟨[], [], []⟩
  unfold emit
  exact ⟨by rw [h.1]; simp, by rw [h.2]; simp⟩

end MB
